import Mathlib

/-!
Shallow embedding of `src/llm/sanitize.py`: Unicode sanitization to prevent
ASCII smuggling attacks.

Python strings are modelled as lists of Unicode scalar values (`List Nat`,
one entry per code point, in order).  Python runtime values reaching
`sanitize_unicode` / `sanitize_dict` are modelled by the inductive `PyVal`
below.  The process-wide cached environment flag `_STRICT_MODE_ENV` is made
an explicit boolean parameter `env` (it is read once at module load in the
source, hence constant across any one process).  Python `dict`s are modelled
as association lists in insertion order with unique keys; dict construction
with a repeated key keeps the first occurrence's position and the stored key
object while updating the value, exactly as CPython does.
-/

namespace LlmSanitize

/-- Membership in `_TAG_RANGE = range(0xE0000, 0xE007F + 1)`: the Unicode Tag
block, the primary ASCII-smuggling vector. -/
def memTagRange (c : Nat) : Bool := 0xE0000 ≤ c && c ≤ 0xE007F

/-- Membership in `_ALWAYS_REMOVE = frozenset(_TAG_RANGE)`. -/
def memAlwaysRemove (c : Nat) : Bool := memTagRange c

/-- Membership in the `_ZERO_WIDTH` frozenset. -/
def memZeroWidth (c : Nat) : Bool :=
  c == 0x200B || c == 0x200C || c == 0x200D || c == 0xFEFF

/-- Membership in the `_BIDI` frozenset. -/
def memBidi (c : Nat) : Bool :=
  c == 0x202A || c == 0x202B || c == 0x202C || c == 0x202D || c == 0x202E ||
  c == 0x2066 || c == 0x2067 || c == 0x2068 || c == 0x2069

/-- Membership in `_STRICT_REMOVE = _ALWAYS_REMOVE | _ZERO_WIDTH | _BIDI`. -/
def memStrictRemove (c : Nat) : Bool :=
  memAlwaysRemove c || memZeroWidth c || memBidi c

/-- Embedding of
`_STRICT_MODE_ENV = os.environ.get("LLM_SANITIZE_STRICT", "").lower() in ("1", "true", "yes")`.
The environment is modelled by the optional value of the variable, and
Python's `str.lower` by lowercasing each character; the recognized tokens
are pure ASCII, on which this agrees with Python. -/
def STRICT_MODE_ENV (envVal : Option String) : Bool :=
  let s := (envVal.getD "").data.map Char.toLower
  s == "1".data || s == "true".data || s == "yes".data

/-- A Python runtime value as seen by this module: a string (list of Unicode
scalar values), `None`, a dict (association list of key-value pairs in
insertion order), a list, a tuple, or any other object (an opaque leaf,
tagged by an integer identity; Python `==` on such leaves is modelled by tag
equality). -/
inductive PyVal where
  | str : List Nat → PyVal
  | pynone : PyVal
  | dict : List (PyVal × PyVal) → PyVal
  | list : List PyVal → PyVal
  | tuple : List PyVal → PyVal
  | other : Int → PyVal

mutual

/-- Structural equality of modelled Python values (Python `==` on the value
shapes that can appear as dict keys or elements). -/
def PyVal.beq : PyVal → PyVal → Bool
  | .str s, .str t => s == t
  | .pynone, .pynone => true
  | .other n, .other m => n == m
  | .dict l, .dict l' => beqPairs l l'
  | .list l, .list l' => beqList l l'
  | .tuple l, .tuple l' => beqList l l'
  | _, _ => false

/-- Pointwise `PyVal.beq` on lists of values. -/
def beqList : List PyVal → List PyVal → Bool
  | [], [] => true
  | x :: xs, y :: ys => PyVal.beq x y && beqList xs ys
  | _, _ => false

/-- Pointwise `PyVal.beq` on lists of key-value pairs. -/
def beqPairs : List (PyVal × PyVal) → List (PyVal × PyVal) → Bool
  | [], [] => true
  | (k, v) :: xs, (k', v') :: ys => PyVal.beq k k' && PyVal.beq v v' && beqPairs xs ys
  | _, _ => false

end

mutual

theorem beqV_refl : ∀ a : PyVal, PyVal.beq a a = true
  | .str _ => by simp [PyVal.beq]
  | .pynone => by simp [PyVal.beq]
  | .other _ => by simp [PyVal.beq]
  | .dict l => by simp [PyVal.beq, beqP_refl l]
  | .list l => by simp [PyVal.beq, beqL_refl l]
  | .tuple l => by simp [PyVal.beq, beqL_refl l]

theorem beqL_refl : ∀ l : List PyVal, beqList l l = true
  | [] => by simp [beqList]
  | x :: xs => by simp [beqList, beqV_refl x, beqL_refl xs]

theorem beqP_refl : ∀ l : List (PyVal × PyVal), beqPairs l l = true
  | [] => by simp [beqPairs]
  | (k, v) :: xs => by simp [beqPairs, beqV_refl k, beqV_refl v, beqP_refl xs]

end

mutual

theorem eq_of_beqV : ∀ a b : PyVal, PyVal.beq a b = true → a = b
  | .str _, b, h => by
      cases b <;> simp [PyVal.beq] at h
      simp [h]
  | .pynone, b, h => by cases b <;> simp [PyVal.beq] at h; rfl
  | .other _, b, h => by
      cases b <;> simp [PyVal.beq] at h
      simp [h]
  | .dict l, b, h => by
      cases b <;> simp [PyVal.beq] at h
      rename_i l'
      rw [eq_of_beqP l l' h]
  | .list l, b, h => by
      cases b <;> simp [PyVal.beq] at h
      rename_i l'
      rw [eq_of_beqL l l' h]
  | .tuple l, b, h => by
      cases b <;> simp [PyVal.beq] at h
      rename_i l'
      rw [eq_of_beqL l l' h]

theorem eq_of_beqL : ∀ l l' : List PyVal, beqList l l' = true → l = l'
  | [], [], _ => rfl
  | [], _ :: _, h => by simp [beqList] at h
  | _ :: _, [], h => by simp [beqList] at h
  | x :: xs, y :: ys, h => by
      simp only [beqList, Bool.and_eq_true] at h
      rw [eq_of_beqV x y h.1, eq_of_beqL xs ys h.2]

theorem eq_of_beqP : ∀ l l' : List (PyVal × PyVal), beqPairs l l' = true → l = l'
  | [], [], _ => rfl
  | [], _ :: _, h => by simp [beqPairs] at h
  | _ :: _, [], h => by simp [beqPairs] at h
  | (k, v) :: xs, (k', v') :: ys, h => by
      simp only [beqPairs, Bool.and_eq_true] at h
      rw [eq_of_beqV k k' h.1.1, eq_of_beqV v v' h.1.2, eq_of_beqP xs ys h.2]

end

instance : BEq PyVal := ⟨PyVal.beq⟩

instance : LawfulBEq PyVal where
  eq_of_beq h := eq_of_beqV _ _ h
  rfl := beqV_refl _

instance : DecidableEq PyVal := fun a b =>
  decidable_of_iff (PyVal.beq a b = true) ⟨eq_of_beqV a b, fun h => h ▸ beqV_refl a⟩

/-- Body of the string branch of `sanitize_unicode`, once the effective
strict flag is resolved:
`chars_to_remove = _STRICT_REMOVE if strict else _ALWAYS_REMOVE` followed by
`"".join(c for c in text if ord(c) not in chars_to_remove)`. -/
def sanitizeText (strictEff : Bool) (text : List Nat) : List Nat :=
  let chars_to_remove := if strictEff then memStrictRemove else memAlwaysRemove
  text.filter (fun c => !(chars_to_remove c))

/-- Embedding of `sanitize_unicode(text, strict=False)`.  The parameter `env`
is the cached `_STRICT_MODE_ENV` boolean.  Mirrors the source's branch order:
`None` passthrough, non-string passthrough, empty-string early return,
environment override (`if _STRICT_MODE_ENV: strict = True`), then the filter.
The function is total: no input raises. -/
def sanitize_unicode (env : Bool) (text : PyVal) (strict : Bool) : PyVal :=
  match text with
  | .pynone => .pynone
  | .str s =>
      if s = [] then .str s
      else
        let strictEff := if env then true else strict
        .str (sanitizeText strictEff s)
  | t => t

/-- One step of Python dict construction: insert key `k` with value `v` into
an association list.  If some stored key compares equal to `k`, that entry's
value is updated in place (CPython keeps the originally stored key object and
its position); otherwise the pair is appended. -/
def dictInsert (kvs : List (PyVal × PyVal)) (k v : PyVal) : List (PyVal × PyVal) :=
  if kvs.any (fun p => PyVal.beq p.1 k) then
    kvs.map (fun p => if PyVal.beq p.1 k then (p.1, v) else p)
  else kvs ++ [(k, v)]

/-- Building a Python dict from a stream of key-value pairs in order, as the
dict comprehension in `sanitize_dict` does (later duplicate keys overwrite
the stored value). -/
def dictFromPairs (ps : List (PyVal × PyVal)) : List (PyVal × PyVal) :=
  ps.foldl (fun acc q => dictInsert acc q.1 q.2) []

mutual

/-- Embedding of `sanitize_dict(obj)`: strings go through
`sanitize_unicode(obj)` (default `strict=False`), dicts are rebuilt by the
comprehension `{sanitize_dict(k): sanitize_dict(v) for k, v in obj.items()}`,
lists and tuples are rebuilt elementwise, and everything else is returned
unchanged.  Total: no input raises. -/
def sanitize_dict (env : Bool) : PyVal → PyVal
  | .str s => sanitize_unicode env (.str s) false
  | .dict kvs => .dict (dictFromPairs (sanitizePairs env kvs))
  | .list xs => .list (sanitizeList env xs)
  | .tuple xs => .tuple (sanitizeList env xs)
  | .pynone => .pynone
  | .other n => .other n

/-- Elementwise `sanitize_dict` over the elements of a list or tuple. -/
def sanitizeList (env : Bool) : List PyVal → List PyVal
  | [] => []
  | x :: xs => sanitize_dict env x :: sanitizeList env xs

/-- Pairwise `sanitize_dict` over the items of a dict, keys and values both,
in iteration order, before dict reconstruction collapses duplicate keys. -/
def sanitizePairs (env : Bool) : List (PyVal × PyVal) → List (PyVal × PyVal)
  | [] => []
  | (k, v) :: rest => (sanitize_dict env k, sanitize_dict env v) :: sanitizePairs env rest

end

/-- Scalar values of a modelled string (empty for non-strings). -/
def strChars : PyVal → List Nat
  | .str s => s
  | _ => []

/-- Key-value pairs of a modelled dict (empty for non-dicts). -/
def dictPairs : PyVal → List (PyVal × PyVal)
  | .dict l => l
  | _ => []

/-- Modelled from the spec: `AlwaysRemove` is "the Unicode Tag block, code
points U+E0000 through U+E007F inclusive". -/
def specAlwaysRemove (c : Nat) : Bool := 0xE0000 ≤ c && c ≤ 0xE007F

/-- Modelled from the spec: `ConditionallyRemove` is "zero-width formatting
characters (U+200B, U+200C, U+200D, U+FEFF) plus bidirectional control
characters (U+202A–U+202E, U+2066–U+2069)". -/
def specConditionallyRemove (c : Nat) : Bool :=
  c == 0x200B || c == 0x200C || c == 0x200D || c == 0xFEFF ||
  (0x202A ≤ c && c ≤ 0x202E) || (0x2066 ≤ c && c ≤ 0x2069)

/-- Modelled from the spec: the active removal set is `AlwaysRemove` if not
strict and `StrictRemoveSet = AlwaysRemove ∪ ConditionallyRemove` if strict. -/
def specActiveRemove (strict : Bool) (c : Nat) : Bool :=
  specAlwaysRemove c || (strict && specConditionallyRemove c)

/-- The code's non-strict removal set coincides with the spec's. -/
theorem alwaysRemove_eq_spec (c : Nat) :
    memAlwaysRemove c = specActiveRemove false c := by
  simp [memAlwaysRemove, memTagRange, specActiveRemove, specAlwaysRemove]

/-- The code's strict removal set coincides with the spec's. -/
theorem strictRemove_eq_spec (c : Nat) :
    memStrictRemove c = specActiveRemove true c := by
  simp only [memStrictRemove, memAlwaysRemove, memTagRange, memZeroWidth, memBidi,
    specActiveRemove, specAlwaysRemove, specConditionallyRemove, Bool.true_and]
  rw [Bool.eq_iff_iff]
  simp only [Bool.or_eq_true, Bool.and_eq_true, decide_eq_true_eq, beq_iff_eq]
  omega

/-- Master equation: on strings, `sanitize_unicode` is the filter with the
effective strict flag `env || strict`. -/
theorem sanitize_unicode_str (env strict : Bool) (t : List Nat) :
    sanitize_unicode env (.str t) strict = .str (sanitizeText (env || strict) t) := by
  by_cases h : t = []
  · subst h; simp [sanitize_unicode, sanitizeText]
  · cases env <;> simp [sanitize_unicode, h]

/-- The walker treats list elements by mapping `sanitize_dict`. -/
theorem sanitizeList_eq_map (env : Bool) :
    ∀ xs : List PyVal, sanitizeList env xs = xs.map (sanitize_dict env)
  | [] => rfl
  | x :: xs => by simp [sanitizeList, sanitizeList_eq_map env xs]

/-- The walker treats dict items by mapping `sanitize_dict` over keys and
values. -/
theorem sanitizePairs_eq_map (env : Bool) :
    ∀ ps : List (PyVal × PyVal),
      sanitizePairs env ps = ps.map (fun p => (sanitize_dict env p.1, sanitize_dict env p.2))
  | [] => rfl
  | (k, v) :: ps => by simp [sanitizePairs, sanitizePairs_eq_map env ps]

/-- Unequal keys under the model's Python equality. -/
theorem beqV_eq_false {a b : PyVal} : PyVal.beq a b = false ↔ a ≠ b := by
  constructor
  · intro h hab
    rw [hab, beqV_refl b] at h
    cases h
  · intro h
    cases hb : PyVal.beq a b
    · rfl
    · exact absurd (eq_of_beqV _ _ hb) h

/-- Relation between dict entries whose keys differ. -/
def keyNe (p q : PyVal × PyVal) : Prop := PyVal.beq p.1 q.1 = false

/-- Any entry of `dictInsert acc k v` is an old entry or the inserted pair. -/
theorem mem_dictInsert {q : PyVal × PyVal} {acc : List (PyVal × PyVal)} {k v : PyVal}
    (h : q ∈ dictInsert acc k v) : q ∈ acc ∨ q = (k, v) := by
  unfold dictInsert at h
  split at h
  · obtain ⟨p, hp, hq⟩ := List.mem_map.1 h
    by_cases hb : PyVal.beq p.1 k = true
    · right
      simp only [hb, if_true] at hq
      rw [← hq, eq_of_beqV _ _ hb]
    · left
      simp only [hb, if_false] at hq
      rwa [← hq]
  · rcases List.mem_append.1 h with h1 | h1
    · exact Or.inl h1
    · right
      simpa using h1

/-- Any entry of the fold of `dictInsert` comes from the accumulator or from
the pair stream. -/
theorem mem_foldl_dictInsert {q : PyVal × PyVal} :
    ∀ (l acc : List (PyVal × PyVal)),
      q ∈ l.foldl (fun a r => dictInsert a r.1 r.2) acc → q ∈ acc ∨ q ∈ l
  | [], _, h => Or.inl h
  | r :: rest, acc, h => by
      simp only [List.foldl_cons] at h
      rcases mem_foldl_dictInsert rest (dictInsert acc r.1 r.2) h with h1 | h1
      · rcases mem_dictInsert h1 with h2 | h2
        · exact Or.inl h2
        · subst h2
          exact Or.inr (List.mem_cons_self _ _)
      · exact Or.inr (List.mem_cons_of_mem _ h1)

/-- Any entry of a constructed dict comes from the pair stream. -/
theorem mem_dictFromPairs {q : PyVal × PyVal} {l : List (PyVal × PyVal)}
    (h : q ∈ dictFromPairs l) : q ∈ l := by
  rcases mem_foldl_dictInsert l [] h with h1 | h1
  · exact absurd h1 (List.not_mem_nil q)
  · exact h1

/-- Inserting preserves pairwise-distinct keys. -/
theorem pairwise_dictInsert {acc : List (PyVal × PyVal)} {k v : PyVal}
    (h : acc.Pairwise keyNe) : (dictInsert acc k v).Pairwise keyNe := by
  unfold dictInsert
  split
  · refine List.Pairwise.map _ ?_ h
    intro a b hab
    have ha : (if PyVal.beq a.1 k then (a.1, v) else a).1 = a.1 := by split <;> rfl
    have hb : (if PyVal.beq b.1 k then (b.1, v) else b).1 = b.1 := by split <;> rfl
    unfold keyNe
    rw [ha, hb]
    exact hab
  · rename_i hany
    rw [List.pairwise_append]
    refine ⟨h, List.pairwise_singleton _ _, ?_⟩
    intro a ha b hb
    simp only [List.mem_singleton] at hb
    subst hb
    have hany : (acc.any fun p => PyVal.beq p.1 k) = false :=
      Bool.eq_false_iff.2 hany
    have := List.any_eq_false.1 hany a ha
    simpa using this

/-- The fold of `dictInsert` preserves pairwise-distinct keys. -/
theorem pairwise_foldl_dictInsert :
    ∀ (l acc : List (PyVal × PyVal)), acc.Pairwise keyNe →
      (l.foldl (fun a r => dictInsert a r.1 r.2) acc).Pairwise keyNe
  | [], _, h => h
  | r :: rest, acc, h => by
      simp only [List.foldl_cons]
      exact pairwise_foldl_dictInsert rest _ (pairwise_dictInsert h)

/-- A constructed dict has pairwise-distinct keys. -/
theorem pairwise_dictFromPairs (l : List (PyVal × PyVal)) :
    (dictFromPairs l).Pairwise keyNe :=
  pairwise_foldl_dictInsert l [] List.Pairwise.nil

/-- When all incoming keys are fresh and pairwise distinct, the fold of
`dictInsert` just appends the pair stream. -/
theorem foldl_dictInsert_of_distinct :
    ∀ (l acc : List (PyVal × PyVal)),
      (∀ p ∈ acc, ∀ q ∈ l, keyNe p q) → l.Pairwise keyNe →
      l.foldl (fun a r => dictInsert a r.1 r.2) acc = acc ++ l
  | [], acc, _, _ => by simp
  | r :: rest, acc, hcross, hpw => by
      simp only [List.foldl_cons]
      have hany : acc.any (fun p => PyVal.beq p.1 r.1) = false := by
        rw [List.any_eq_false]
        intro p hp
        have := hcross p hp r (List.mem_cons_self _ _)
        simp [keyNe] at this
        simp [this]
      have hins : dictInsert acc r.1 r.2 = acc ++ [r] := by
        unfold dictInsert
        rw [hany]
        simp
      have hpw' := List.pairwise_cons.1 hpw
      have hcross' : ∀ p ∈ acc ++ [r], ∀ q ∈ rest, keyNe p q := by
        intro p hp q hq
        rcases List.mem_append.1 hp with h1 | h1
        · exact hcross p h1 q (List.mem_cons_of_mem _ hq)
        · simp only [List.mem_singleton] at h1
          subst h1
          exact hpw'.1 q hq
      rw [hins, foldl_dictInsert_of_distinct rest (acc ++ [r]) hcross' hpw'.2]
      simp

/-- Dict construction from a stream with pairwise-distinct keys returns the
stream itself. -/
theorem dictFromPairs_of_pairwise {l : List (PyVal × PyVal)} (h : l.Pairwise keyNe) :
    dictFromPairs l = l := by
  unfold dictFromPairs
  rw [foldl_dictInsert_of_distinct l []
    (fun p hp => absurd hp (List.not_mem_nil p)) h]
  simp

/-- Dict construction is idempotent. -/
theorem dictFromPairs_idem (l : List (PyVal × PyVal)) :
    dictFromPairs (dictFromPairs l) = dictFromPairs l :=
  dictFromPairs_of_pairwise (pairwise_dictFromPairs l)

/-- Lookup hits a cons cell whose key matches. -/
theorem lookup_cons_eq {k pk pv : PyVal} {es : List (PyVal × PyVal)}
    (h : (k == pk) = true) : List.lookup k ((pk, pv) :: es) = some pv := by
  rw [List.lookup_cons, h]

/-- Lookup skips a cons cell whose key differs. -/
theorem lookup_cons_ne {k pk pv : PyVal} {es : List (PyVal × PyVal)}
    (h : (k == pk) = false) : List.lookup k ((pk, pv) :: es) = List.lookup k es := by
  rw [List.lookup_cons, h]

/-- Looking up a key untouched by an in-place value update. -/
theorem lookup_map_update_ne {k k' v : PyVal} (hne : k ≠ k') :
    ∀ acc : List (PyVal × PyVal),
      List.lookup k (acc.map fun p => if PyVal.beq p.1 k' then (p.1, v) else p)
        = List.lookup k acc
  | [] => rfl
  | (pk, pv) :: acc => by
      simp only [List.map_cons]
      by_cases hb : PyVal.beq pk k' = true
      · have hk : (k == pk) = false :=
          beqV_eq_false.2 fun h => hne (h.trans (eq_of_beqV _ _ hb))
        rw [if_pos hb, lookup_cons_ne hk, lookup_cons_ne hk]
        exact lookup_map_update_ne hne acc
      · rw [if_neg hb]
        cases hk : (k == pk)
        · rw [lookup_cons_ne hk, lookup_cons_ne hk]
          exact lookup_map_update_ne hne acc
        · rw [lookup_cons_eq hk, lookup_cons_eq hk]

/-- Looking up the inserted key after an in-place value update that hit. -/
theorem lookup_map_update_eq {k v : PyVal} :
    ∀ acc : List (PyVal × PyVal), acc.any (fun p => PyVal.beq p.1 k) = true →
      List.lookup k (acc.map fun p => if PyVal.beq p.1 k then (p.1, v) else p) = some v
  | [], hany => by simp at hany
  | (pk, pv) :: acc, hany => by
      simp only [List.map_cons]
      by_cases hb : PyVal.beq pk k = true
      · have hk : (k == pk) = true := by
          rw [eq_of_beqV _ _ hb]
          exact beqV_refl k
        rw [if_pos hb, lookup_cons_eq hk]
      · have hk : (k == pk) = false := by
          refine beqV_eq_false.2 fun h => ?_
          rw [← h] at hb
          exact hb (beqV_refl k)
        have hany' : acc.any (fun p => PyVal.beq p.1 k) = true := by
          simpa [hb] using hany
        rw [if_neg hb, lookup_cons_ne hk]
        exact lookup_map_update_eq acc hany'

/-- Looking up the appended key when no stored key matched. -/
theorem lookup_append_single_eq {k v : PyVal} (acc : List (PyVal × PyVal))
    (hany : acc.any (fun p => PyVal.beq p.1 k) = false) :
    List.lookup k (acc ++ [(k, v)]) = some v := by
  rw [List.lookup_append]
  have h1 : List.lookup k acc = none := by
    rw [List.lookup_eq_none_iff]
    intro p hp
    have := List.any_eq_false.1 hany p hp
    have hf : PyVal.beq p.1 k = false := by simpa using this
    have hne : k ≠ p.1 := fun h => by
      rw [h, beqV_refl] at hf
      cases hf
    simpa using hne
  rw [h1, Option.none_or, lookup_cons_eq (beqV_refl k)]

/-- The net effect of `dictInsert` on lookup: the inserted key now maps to
the inserted value, every other key is untouched. -/
theorem lookup_dictInsert (k k' v : PyVal) (acc : List (PyVal × PyVal)) :
    List.lookup k (dictInsert acc k' v)
      = if k = k' then some v else List.lookup k acc := by
  by_cases hk : k = k'
  · subst hk
    rw [if_pos rfl]
    unfold dictInsert
    split
    · rename_i hany
      exact lookup_map_update_eq acc hany
    · rename_i hany
      exact lookup_append_single_eq acc (Bool.eq_false_iff.2 hany)
  · rw [if_neg hk]
    unfold dictInsert
    split
    · exact lookup_map_update_ne hk acc
    · rw [List.lookup_append]
      have h2 : List.lookup k [(k', v)] = none :=
        lookup_cons_ne (beqV_eq_false.2 hk)
      rw [h2, Option.or_none]

/-- Lookup through the whole fold: the last pair of the stream whose key
matches wins; otherwise the accumulator decides. -/
theorem lookup_foldl_dictInsert (k : PyVal) :
    ∀ (l acc : List (PyVal × PyVal)),
      List.lookup k (l.foldl (fun a r => dictInsert a r.1 r.2) acc)
        = ((l.reverse.find? fun q => k == q.1).map Prod.snd).or (List.lookup k acc)
  | [], acc => by simp
  | r :: rest, acc => by
      simp only [List.foldl_cons, List.reverse_cons, List.find?_append]
      rw [lookup_foldl_dictInsert k rest (dictInsert acc r.1 r.2), lookup_dictInsert]
      cases hfound : rest.reverse.find? fun q => k == q.1 with
      | some q => simp [hfound]
      | none =>
          simp only [hfound, Option.map_none', Option.none_or]
          by_cases hk : k = r.1
          · have : (k == r.1) = true := by
              rw [hk]
              exact beqV_refl r.1
            simp [hk, this]
          · have : (k == r.1) = false := beqV_eq_false.2 hk
            simp [hk, this]

/-- Lookup in a constructed dict: the value of the last pair of the stream
whose key matches. -/
theorem lookup_dictFromPairs (k : PyVal) (l : List (PyVal × PyVal)) :
    List.lookup k (dictFromPairs l)
      = (l.reverse.find? fun q => k == q.1).map Prod.snd := by
  unfold dictFromPairs
  rw [lookup_foldl_dictInsert]
  simp

/-- The character filter is idempotent for a fixed effective mode. -/
theorem sanitizeText_idem (b : Bool) (t : List Nat) :
    sanitizeText b (sanitizeText b t) = sanitizeText b t := by
  unfold sanitizeText
  cases b <;> simp [List.filter_filter]

/-- Applying the strict filter after the non-strict one is the strict
filter: the non-strict removal set is contained in the strict one. -/
theorem sanitizeText_strict_after (t : List Nat) :
    sanitizeText true (sanitizeText false t) = sanitizeText true t := by
  unfold sanitizeText
  simp only [if_pos, if_neg, List.filter_filter]
  apply List.filter_congr
  intro c _
  cases h : memAlwaysRemove c
  · simp [h]
  · have hs : memStrictRemove c = true := by simp [memStrictRemove, h]
    simp [h, hs]

/-- A pair stream of fixed points of the walker is untouched by the walker. -/
theorem sanitizePairs_of_fixed (env : Bool) :
    ∀ ps : List (PyVal × PyVal),
      (∀ q ∈ ps, sanitize_dict env q.1 = q.1 ∧ sanitize_dict env q.2 = q.2) →
      sanitizePairs env ps = ps
  | [], _ => rfl
  | (k, v) :: ps, h => by
      have hh := h (k, v) (List.mem_cons_self _ _)
      simp only [sanitizePairs]
      rw [hh.1, hh.2,
        sanitizePairs_of_fixed env ps (fun q hq => h q (List.mem_cons_of_mem _ hq))]

mutual

/-- The structure walker is idempotent. -/
theorem sdIdem (env : Bool) :
    ∀ v : PyVal, sanitize_dict env (sanitize_dict env v) = sanitize_dict env v
  | .str s => by
      have h1 : sanitize_dict env (.str s) = .str (sanitizeText (env || false) s) := by
        simp only [sanitize_dict]
        rw [sanitize_unicode_str]
      rw [h1]
      simp only [sanitize_dict]
      rw [sanitize_unicode_str, sanitizeText_idem]
  | .pynone => rfl
  | .other n => rfl
  | .list xs => by
      simp only [sanitize_dict]
      rw [slIdem env xs]
  | .tuple xs => by
      simp only [sanitize_dict]
      rw [slIdem env xs]
  | .dict kvs => by
      simp only [sanitize_dict]
      have hfix : ∀ q ∈ dictFromPairs (sanitizePairs env kvs),
          sanitize_dict env q.1 = q.1 ∧ sanitize_dict env q.2 = q.2 :=
        fun q hq => spFix env kvs q (mem_dictFromPairs hq)
      rw [sanitizePairs_of_fixed env _ hfix, dictFromPairs_idem]

/-- The elementwise walker over lists is idempotent. -/
theorem slIdem (env : Bool) :
    ∀ xs : List PyVal, sanitizeList env (sanitizeList env xs) = sanitizeList env xs
  | [] => rfl
  | x :: xs => by
      simp only [sanitizeList]
      rw [sdIdem env x, slIdem env xs]

/-- Every pair produced by the pairwise walker is a fixed point of the
walker in both components. -/
theorem spFix (env : Bool) :
    ∀ ps : List (PyVal × PyVal), ∀ q ∈ sanitizePairs env ps,
      sanitize_dict env q.1 = q.1 ∧ sanitize_dict env q.2 = q.2
  | [], q, hq => absurd hq (List.not_mem_nil q)
  | (k, v) :: ps, q, hq => by
      simp only [sanitizePairs, List.mem_cons] at hq
      rcases hq with h | h
      · subst h
        exact ⟨sdIdem env k, sdIdem env v⟩
      · exact spFix env ps q h

end

/-- A code point of the Tag block never survives the filter, in either mode. -/
theorem count_sanitizeText_removed (b : Bool) (t : List Nat) {c : Nat}
    (h : memAlwaysRemove c = true) : (sanitizeText b t).count c = 0 := by
  apply List.count_eq_zero.2
  intro hmem
  unfold sanitizeText at hmem
  have h2 := (List.mem_filter.1 hmem).2
  have hs : memStrictRemove c = true := by simp [memStrictRemove, h]
  cases b <;> simp [h, hs] at h2

/-- A code point outside the strict removal set survives the filter with its
multiplicity intact, in either mode. -/
theorem count_sanitizeText_kept (b : Bool) (t : List Nat) {c : Nat}
    (h : memStrictRemove c = false) : (sanitizeText b t).count c = t.count c := by
  have ha : memAlwaysRemove c = false := by
    cases hh : memAlwaysRemove c
    · rfl
    · rw [memStrictRemove, hh] at h
      simp at h
  unfold sanitizeText
  cases b
  · exact List.count_filter (by simp [ha])
  · exact List.count_filter (by simp [h])

/-- C1.  For every string input `t` and every effective strict flag, the
filter returns exactly the subsequence of `t` of scalar values whose code
point is not in the active removal set (the spec's `AlwaysRemove` when not
strict, `StrictRemoveSet` when strict), all other scalar values kept in
original order and multiplicity (the result is a sublist of the input). -/
theorem C1_filter_removes_active_set (env m : Bool) (t : List Nat) :
    sanitize_unicode env (.str t) m
        = .str (t.filter fun c => !specActiveRemove (env || m) c)
      ∧ (t.filter fun c => !specActiveRemove (env || m) c).Sublist t := by
  refine ⟨?_, List.filter_sublist t⟩
  rw [sanitize_unicode_str]
  unfold sanitizeText
  cases env <;> cases m
  all_goals simp only [Bool.false_or, Bool.true_or, Bool.or_self, if_pos, if_neg]
  all_goals refine congrArg PyVal.str (List.filter_congr fun c _ => ?_)
  all_goals simp only [Bool.false_eq_true, if_false, if_true,
    alwaysRemove_eq_spec, strictRemove_eq_spec]

/-- C2.  When the cached environment flag is truthy, a call that explicitly
requests non-strict mode behaves as strict; when it is not truthy, the
caller's `strict` argument decides.  The recognized truthy values include
`"1"`, `"TRUE"`, `"Yes"` (case-insensitively), while unset and `"0"` are
not truthy. -/
theorem C2_env_override_forces_strict (envVal : Option String) (t : List Nat) (m : Bool) :
    (STRICT_MODE_ENV envVal = true →
      sanitize_unicode (STRICT_MODE_ENV envVal) (.str t) false
        = sanitize_unicode (STRICT_MODE_ENV envVal) (.str t) true)
    ∧ (STRICT_MODE_ENV envVal = false →
      sanitize_unicode (STRICT_MODE_ENV envVal) (.str t) m = .str (sanitizeText m t))
    ∧ STRICT_MODE_ENV (some "1") = true
    ∧ STRICT_MODE_ENV (some "TRUE") = true
    ∧ STRICT_MODE_ENV (some "Yes") = true
    ∧ STRICT_MODE_ENV Option.none = false
    ∧ STRICT_MODE_ENV (some "0") = false := by
  refine ⟨?_, ?_, by decide, by decide, by decide, by decide, by decide⟩
  · intro h
    rw [h]
    simp only [sanitize_unicode_str, Bool.true_or]
  · intro h
    rw [h, sanitize_unicode_str]
    simp only [Bool.false_or]

/-- Witness for C2 at concrete inputs. -/
theorem C2_env_override_forces_strict_witness :
    (sanitize_unicode (STRICT_MODE_ENV (some "TRUE")) (.str [0x200B]) false
      = sanitize_unicode (STRICT_MODE_ENV (some "TRUE")) (.str [0x200B]) true)
    ∧ sanitize_unicode (STRICT_MODE_ENV Option.none) (.str [0x200B]) false
      = .str (sanitizeText false [0x200B]) :=
  ⟨(C2_env_override_forces_strict (some "TRUE") [0x200B] false).1 (by decide),
   (C2_env_override_forces_strict Option.none [0x200B] false).2.1 (by decide)⟩

/-- C3.  Tag-range boundaries are exact: in both modes, U+E0000 and U+E007F
never survive, while the adjacent U+DFFFF and U+E0080 keep their original
multiplicity. -/
theorem C3_tag_range_boundaries (env m : Bool) (t : List Nat) :
    (strChars (sanitize_unicode env (.str t) m)).count 0xE0000 = 0
    ∧ (strChars (sanitize_unicode env (.str t) m)).count 0xE007F = 0
    ∧ (strChars (sanitize_unicode env (.str t) m)).count 0xDFFFF = t.count 0xDFFFF
    ∧ (strChars (sanitize_unicode env (.str t) m)).count 0xE0080 = t.count 0xE0080 := by
  rw [sanitize_unicode_str]
  simp only [strChars]
  exact ⟨count_sanitizeText_removed _ t (by decide),
    count_sanitizeText_removed _ t (by decide),
    count_sanitizeText_kept _ t (by decide),
    count_sanitizeText_kept _ t (by decide)⟩

/-- C4.  With the environment override unset, the strict result is the
non-strict result with the conditionally-removable code points further
removed: filtering strictly after non-strictly equals filtering strictly. -/
theorem C4_strict_refines_nonstrict (t : List Nat) :
    sanitize_unicode false (sanitize_unicode false (.str t) false) true
      = sanitize_unicode false (.str t) true := by
  simp only [sanitize_unicode_str, Bool.false_or]
  rw [sanitizeText_strict_after]

/-- C5.  The filter is idempotent for every string, mode, and fixed
environment flag. -/
theorem C5_filter_idempotent (env m : Bool) (t : List Nat) :
    sanitize_unicode env (sanitize_unicode env (.str t) m) m
      = sanitize_unicode env (.str t) m := by
  simp only [sanitize_unicode_str]
  rw [sanitizeText_idem]

/-- C6.  The filter and walker never fail: `None` maps to `None`, any
non-string value passes through `sanitize_unicode` unchanged, and any value
that is not a string, dict, list, or tuple passes through `sanitize_dict`
unchanged.  Totality of the Lean functions reflects that no input raises. -/
theorem C6_never_fails_passthrough (env m : Bool) (v : PyVal) :
    sanitize_unicode env .pynone m = .pynone
    ∧ ((∀ s, v ≠ .str s) → sanitize_unicode env v m = v)
    ∧ ((∀ s, v ≠ .str s) → (∀ l, v ≠ .dict l) → (∀ l, v ≠ .list l) →
        (∀ l, v ≠ .tuple l) → sanitize_dict env v = v) := by
  refine ⟨rfl, ?_, ?_⟩
  · intro h
    cases v
    case str s => exact absurd rfl (h s)
    all_goals rfl
  · intro h1 h2 h3 h4
    cases v
    case str s => exact absurd rfl (h1 s)
    case dict l => exact absurd rfl (h2 l)
    case list l => exact absurd rfl (h3 l)
    case tuple l => exact absurd rfl (h4 l)
    all_goals rfl

/-- Witness for C6 at a concrete non-text leaf. -/
theorem C6_never_fails_passthrough_witness :
    sanitize_unicode true .pynone true = .pynone
    ∧ sanitize_unicode true (.other 7) true = .other 7
    ∧ sanitize_dict true (.other 7) = .other 7 :=
  ⟨(C6_never_fails_passthrough true true (.other 7)).1,
   (C6_never_fails_passthrough true true (.other 7)).2.1
     (fun _ h => PyVal.noConfusion h),
   (C6_never_fails_passthrough true true (.other 7)).2.2
     (fun _ h => PyVal.noConfusion h) (fun _ h => PyVal.noConfusion h)
     (fun _ h => PyVal.noConfusion h) (fun _ h => PyVal.noConfusion h)⟩

/-- C7.  The walker sanitizes both keys and values of a mapping, preserves
key-value association, and on key collisions keeps the sanitized value of
the last input pair (in iteration order) whose sanitized key matches; the
result is always a dict. -/
theorem C7_dict_last_write_wins (env : Bool) (kvs : List (PyVal × PyVal)) (k : PyVal) :
    (∃ res, sanitize_dict env (.dict kvs) = .dict res)
    ∧ List.lookup k (dictPairs (sanitize_dict env (.dict kvs)))
        = ((kvs.map fun p => (sanitize_dict env p.1, sanitize_dict env p.2)).reverse.find?
            fun q => k == q.1).map Prod.snd := by
  constructor
  · exact ⟨dictFromPairs (sanitizePairs env kvs), by simp only [sanitize_dict]⟩
  · simp only [sanitize_dict, dictPairs]
    rw [lookup_dictFromPairs, ← sanitizePairs_eq_map]

/-- C8.  The walker maps lists to lists and tuples to tuples of the same
length, sanitizing each element in place: the i-th output element is the
sanitization of the i-th input element. -/
theorem C8_list_tuple_elementwise (env : Bool) (xs : List PyVal) :
    sanitize_dict env (.list xs) = .list (xs.map (sanitize_dict env))
    ∧ sanitize_dict env (.tuple xs) = .tuple (xs.map (sanitize_dict env))
    ∧ (xs.map (sanitize_dict env)).length = xs.length
    ∧ ∀ i : Nat, (xs.map (sanitize_dict env))[i]? = (xs[i]?).map (sanitize_dict env) := by
  refine ⟨?_, ?_, List.length_map _ _, fun i => List.getElem?_map _ _ _⟩
  · simp only [sanitize_dict]
    rw [sanitizeList_eq_map]
  · simp only [sanitize_dict]
    rw [sanitizeList_eq_map]

/-- C9.  The filter is a homomorphism for string concatenation, for every
mode and fixed environment flag. -/
theorem C9_concat_homomorphism (env m : Bool) (s t : List Nat) :
    sanitize_unicode env (.str (s ++ t)) m
      = .str (strChars (sanitize_unicode env (.str s) m)
          ++ strChars (sanitize_unicode env (.str t) m)) := by
  simp only [sanitize_unicode_str, strChars]
  unfold sanitizeText
  rw [List.filter_append]

/-- C10.  The structure walker is idempotent on every finite value, and a
bare top-level string is sanitized by the walker exactly as by the filter
with the default (environment-resolved) mode. -/
theorem C10_walker_idempotent (env : Bool) (v : PyVal) :
    sanitize_dict env (sanitize_dict env v) = sanitize_dict env v
    ∧ ∀ s : List Nat, sanitize_dict env (.str s) = sanitize_unicode env (.str s) false :=
  ⟨sdIdem env v, fun _ => by simp only [sanitize_dict]⟩

end LlmSanitize
